import Mathlib

/-!
Verification of the constraint-framework / component-aggregation layer of the
stwo prover (crates/prover/src/constraint_framework/mod.rs and
crates/prover/src/core/air/components.rs), as a shallow embedding.

Conventions of the embedding:
* Rust panics (`unwrap`, `itertools::zip_eq` length mismatch, `unimplemented!`)
  are modelled by `Option`/`PanicOr`: `none`/`panicked` means the call panics and
  produces no result.
* `TreeVec<T>` / `ColumnVec<T>` are plain lists; external field and accumulator
  types are opaque type parameters, with the operations the embedded code
  invokes on them passed as function parameters.
-/

namespace Stwo

/-- `SECURE_EXTENSION_DEGREE` from `core/fields/secure_column.rs`: the secure
field is a degree-4 extension of the base field. -/
def SECURE_EXTENSION_DEGREE : Nat := 4

/-- Model of `itertools::zip_eq`: zips two lists, panicking (here: `none`)
when their lengths differ. -/
def zipEq (as : List α) (bs : List β) : Option (List (α × β)) :=
  if as.length = bs.length then some (as.zip bs) else none

/-- Modelled from the spec: the per-tree aggregation step of
`Components::mask_points` / `Components::column_log_sizes`
(`air.resize` followed by `TreeVec::zip_eq` + `extend`; `TreeVec` lives in
`core/pcs`, which is not part of the given sources).  The spec states that the
per-tree list grows as needed so all components' tree counts align and that a
shorter component's missing trees contribute nothing to the trailing trees:
tree `t` of the result is tree `t` of the accumulator extended by tree `t` of
the component (empty when the component has no tree `t`). -/
def extendInto : List (List β) → List (List β) → List (List β)
  | airs, [] => airs
  | [], c :: cr => c :: extendInto [] cr
  | a :: ar, c :: cr => (a ++ c) :: extendInto ar cr

/-- A component (the `Component` trait object), with the operations the
aggregators invoke.  `P` = evaluation points, `S` = `SecureField`,
`A` = `PointEvaluationAccumulator`, `I` = `InteractionElements`,
`LV` = lookup-value entries. -/
structure Component (P S A I LV : Type) where
  maxConstraintLogDegreeBound : Nat
  nConstraints : Nat
  maskPoints : P → List (List (List P))
  traceLogDegreeBounds : List (List Nat)
  evaluateConstraintQuotientsAtPoint :
    P → List (List (List S)) → A → I → List LV → A

variable {P S A I LV : Type}

/-- `Components::composition_log_degree_bound`: the `max` over components of
`max_constraint_log_degree_bound`, with the `unwrap` of the empty-iterator
`None` modelled by `Option`. -/
def compositionLogDegreeBound (cs : List (Component P S A I LV)) : Option Nat :=
  (cs.map (fun c => c.maxConstraintLogDegreeBound)).max?

/-- `Components::mask_points`: fold every component's mask points into the
per-tree accumulator, then push the composition-polynomial mask tree
(`SECURE_EXTENSION_DEGREE` columns, each holding just `point`). -/
def maskPoints (cs : List (Component P S A I LV)) (point : P) :
    List (List (List P)) :=
  (cs.foldl (fun air c => extendInto air (c.maskPoints point)) [])
    ++ [List.replicate SECURE_EXTENSION_DEGREE [point]]

/-- `Components::column_log_sizes`: the same per-tree aggregation applied to
`trace_log_degree_bounds`, with no extra tree appended. -/
def columnLogSizes (cs : List (Component P S A I LV)) : List (List Nat) :=
  cs.foldl (fun air c => extendInto air c.traceLogDegreeBounds) []

/-- `Components::eval_composition_polynomial_at_point`: `zip_eq` the components
with the supplied mask values (panic = `none` on count mismatch), fold each
component's contribution into a `PointEvaluationAccumulator` built by `newAcc`
from `random_coeff`, and finalize. -/
def evalCompositionPolynomialAtPoint (newAcc : S → A) (finalize : A → S)
    (cs : List (Component P S A I LV)) (point : P)
    (maskValues : List (List (List (List S)))) (randomCoeff : S)
    (interactionElements : I) (lookupVals : List LV) : Option S :=
  (zipEq cs maskValues).map fun pairs =>
    finalize (pairs.foldl
      (fun acc cm =>
        cm.1.evaluateConstraintQuotientsAtPoint point cm.2 acc
          interactionElements lookupVals)
      (newAcc randomCoeff))

/-- `ComponentTrace` (from `core/air`): the per-component bundle of per-tree
polynomial and evaluation slices produced by `component_traces`.
`Po` = committed polynomials, `Ev` = their evaluations. -/
structure ComponentTrace (Po Ev : Type) where
  polys : List (List Po)
  evals : List (List Ev)

/-- `CommitmentTreeProver` (from `core/pcs`), reduced to the two flat column
lists `component_traces` reads from it. -/
structure CommitmentTreeProver (Po Ev : Type) where
  polynomials : List Po
  evaluations : List Ev

/-- A prover-side component (the `ComponentProver` trait object): a `Component`
plus full-domain evaluation (`DA` = `DomainEvaluationAccumulator`) and
lookup-value publication. -/
structure ComponentProver (P S A I LV DA Po Ev : Type) where
  toComponent : Component P S A I LV
  evaluateConstraintQuotientsOnDomain :
    ComponentTrace Po Ev → DA → I → List LV → DA
  lookupValues : ComponentTrace Po Ev → List LV

/-- One component's step of `ComponentProvers::component_traces` over one flat
per-tree column list: `zip_eq` the component's per-tree column counts with the
per-tree iterators (panic = `none` when the component's tree count differs from
the number of trees), and `take` `n_columns` entries from each tree's iterator
(the pair returned is iterator output and remaining iterator state). -/
def takeComponentColumns (ns : List Nat) (rem : List (List α)) :
    Option (List (List α) × List (List α)) :=
  if ns.length = rem.length then
    some (List.zipWith (fun n r => r.take n) ns rem,
      List.zipWith (fun n r => r.drop n) ns rem)
  else none

/-- The component loop of `ComponentProvers::component_traces` over one flat
per-tree column list, threading the per-tree iterator state through the
components in order. -/
def consumeTraces : List (List Nat) → List (List α) →
    Option (List (List (List α)) × List (List α))
  | [], rem => some ([], rem)
  | ns :: rest, rem =>
    match takeComponentColumns ns rem with
    | none => none
    | some (slices, rem1) =>
      match consumeTraces rest rem1 with
      | none => none
      | some (outs, rem2) => some (slices :: outs, rem2)

variable {DA Po Ev CP : Type}

/-- `ComponentProvers::component_traces`: each component's per-tree column
counts are the lengths of its `trace_log_degree_bounds`; the polynomial and
evaluation iterators are consumed by the same loop. -/
def componentTraces (cps : List (ComponentProver P S A I LV DA Po Ev))
    (trees : List (CommitmentTreeProver Po Ev)) :
    Option (List (ComponentTrace Po Ev)) :=
  let tldbs := cps.map fun c => c.toComponent.traceLogDegreeBounds.map List.length
  match consumeTraces tldbs (trees.map fun tr => tr.polynomials),
      consumeTraces tldbs (trees.map fun tr => tr.evaluations) with
  | some (polysOut, _), some (evalsOut, _) =>
    some ((polysOut.zip evalsOut).map fun pe => ⟨pe.1, pe.2⟩)
  | _, _ => none

/-- `ComponentProvers::lookup_values`: `zip_eq` components with component
traces (panic = `none` on count mismatch) and concatenate each component's
published lookup values in component order. -/
def lookupValuesAgg (cps : List (ComponentProver P S A I LV DA Po Ev))
    (traces : List (ComponentTrace Po Ev)) : Option (List LV) :=
  (zipEq cps traces).map fun pairs =>
    pairs.foldl (fun vals ct => vals ++ ct.1.lookupValues ct.2) []

/-- `ComponentProvers::compute_composition_polynomial`: build a
`DomainEvaluationAccumulator` from the random coefficient, the global degree
bound (`unwrap` = `none` on an empty component list) and the total constraint
count, `zip_eq` components with traces (panic = `none` on count mismatch),
fold every component's full-domain contribution, and finalize into `CP`. -/
def computeCompositionPolynomial (daNew : S → Nat → Nat → DA)
    (daFinalize : DA → CP) (cps : List (ComponentProver P S A I LV DA Po Ev))
    (randomCoeff : S) (traces : List (ComponentTrace Po Ev))
    (interactionElements : I) (lookupVals : List LV) : Option CP :=
  let totalConstraints := (cps.map fun c => c.toComponent.nConstraints).sum
  match compositionLogDegreeBound (cps.map fun c => c.toComponent) with
  | none => none
  | some bound =>
    (zipEq cps traces).map fun pairs =>
      daFinalize (pairs.foldl
        (fun acc ct =>
          ct.1.evaluateConstraintQuotientsOnDomain ct.2 acc
            interactionElements lookupVals)
        (daNew randomCoeff bound totalConstraints))

/-- The stateful per-tree column cursor of an `EvalAtRow` evaluator:
`curs tree` is the next unread column of `tree`, and `cols tree col offset` is
the mask value of column `col` of `tree` at the signed row offset `offset`. -/
structure EvalCursor (F : Type) where
  curs : Nat → Nat
  cols : Nat → Nat → Int → F

/-- `EvalAtRow::next_interaction_mask`: read the requested row offsets of the
current column of `interaction` and advance that tree's cursor by one. -/
def nextInteractionMask (s : EvalCursor F) (interaction : Nat)
    (offsets : List Int) : List F × EvalCursor F :=
  (offsets.map fun o => s.cols interaction (s.curs interaction) o,
   ⟨fun t => if t = interaction then s.curs t + 1 else s.curs t, s.cols⟩)

/-- `EvalAtRow::next_extension_interaction_mask`: call `next_interaction_mask`
`SECURE_EXTENSION_DEGREE` (= 4) times (`array::from_fn` over the extension
degree), then recombine the four per-column offset rows column-major with
`Self::combine_ef`, one extension value per requested offset. -/
def nextExtensionInteractionMask (combineEf : F → F → F → F → EF)
    (s : EvalCursor F) (interaction : Nat) (offsets : List Int) :
    List EF × EvalCursor F :=
  let r0 := nextInteractionMask s interaction offsets
  let r1 := nextInteractionMask r0.2 interaction offsets
  let r2 := nextInteractionMask r1.2 interaction offsets
  let r3 := nextInteractionMask r2.2 interaction offsets
  (List.zipWith (fun a bcd => combineEf a bcd.1 bcd.2.1 bcd.2.2)
    r0.1 (r1.1.zip (r2.1.zip r3.1)), r3.2)

/-- `LookupElements<SIZE>` (field layout from `constraint_framework/logup.rs`):
the ladder of challenge powers and the offset challenge `z`, both already
viewed in the caller's challenge type `S`. -/
structure LookupElements (S : Type) where
  alphaPowers : List S
  z : S

/-- `combine` of the `relation!` macro: fold `acc + EF::from(power) * value`
over `values` zipped with `alpha_powers`, then subtract `z`.  `frm` is the
`EF::from(SecureField)` embedding and `mulF` the `Mul<F> for EF` action. -/
def relationCombine {S F EF : Type} [AddCommGroup EF] (frm : S → EF)
    (mulF : EF → F → EF) (le : LookupElements S) (values : List F) : EF :=
  (values.zip le.alphaPowers).foldl (fun acc vp => acc + mulF (frm vp.2) vp.1) 0
    - frm le.z

/-- The `Relation` trait object as `add_to_relation` sees it: a combine
function on value tuples (and a diagnostic name). -/
structure RelationI (F EF : Type) where
  combine : List F → EF
  name : String

/-- `RelationEntry`: a relation reference, a (signed, already widened)
multiplicity, and the value tuple entered into the relation. -/
structure RelationEntry (F EF : Type) where
  relation : RelationI F EF
  multiplicity : EF
  values : List F

/-- `Fraction` (from `core/lookups/utils.rs`, declaration only: numerator and
denominator). -/
@[ext]
structure Fraction (R : Type) where
  numerator : R
  denominator : R

/-- Modelled from the spec: `Add for Fraction` (`core/lookups/utils.rs` is not
part of the given sources) — common-denominator addition
`a/b + c/d = (a·d + c·b)/(b·d)`. -/
def Fraction.add [Add R] [Mul R] (a b : Fraction R) : Fraction R :=
  ⟨a.numerator * b.denominator + b.numerator * a.denominator,
   a.denominator * b.denominator⟩

/-- Modelled from the spec: the iterator `Sum` of fractions used by
`add_to_relation` (`core/lookups/utils.rs` is not part of the given sources) —
"sums all fractions of the batch via common-denominator addition into one
fraction".  The empty sum is the zero fraction `0/1`. -/
def sumFracs [Add R] [Mul R] [Zero R] [One R] : List (Fraction R) → Fraction R
  | [] => ⟨0, 1⟩
  | h :: t => t.foldl Fraction.add h

/-- `EvalAtRow::add_to_relation`: turn every entry into the fraction
`multiplicity / relation.combine(values)` and forward the batch sum to
`write_frac`; this is the forwarded fraction. -/
def addToRelationFrac {F EF : Type} [Add EF] [Mul EF] [Zero EF] [One EF]
    (entries : List (RelationEntry F EF)) : Fraction EF :=
  sumFracs (entries.map fun e =>
    Fraction.mk e.multiplicity (e.relation.combine e.values))

/-- Denominator of the spec-side common-denominator sum: the product of all
denominators of the batch. -/
def cdsDen [Mul R] [One R] : List (Fraction R) → R
  | [] => 1
  | f :: t => f.denominator * cdsDen t

/-- Numerator of the spec-side common-denominator sum: each numerator times
the product of all other denominators. -/
def cdsNum [Add R] [Mul R] [Zero R] [One R] : List (Fraction R) → R
  | [] => 0
  | f :: t => f.numerator * cdsDen t + f.denominator * cdsNum t

/-- The claim's spec-side reading of the batch sum of C3: the single fraction
obtained by putting the k individual fractions over the common denominator
(the product of all denominators). -/
def commonDenomSumSpec [Add R] [Mul R] [Zero R] [One R]
    (l : List (Fraction R)) : Fraction R :=
  ⟨cdsNum l, cdsDen l⟩

/-- Outcome of a Rust call that may `panic!`/`unimplemented!`: a panic aborts
with a message and yields no value. -/
inductive PanicOr (α : Type) where
  | panicked : String → PanicOr α
  | ok : α → PanicOr α
  deriving DecidableEq

/-- Default `EvalAtRow::init_logup`: `unimplemented!()`. -/
def initLogupDefault {S CPS : Type} (_totalSum : S) (_claimedSum : Option CPS)
    (_logSize : Nat) : PanicOr Unit :=
  .panicked "not implemented"

/-- Default `EvalAtRow::write_frac`: `unimplemented!()`. -/
def writeFracDefault {EF : Type} (_fraction : Fraction EF) : PanicOr Unit :=
  .panicked "not implemented"

/-- Default `EvalAtRow::finalize_logup`: `unimplemented!()`. -/
def finalizeLogupDefault : PanicOr Unit :=
  .panicked "not implemented"

/-- A concrete component over trivial carrier types, used to instantiate the
aggregator theorems on explicit inputs. -/
def testComponent (bound : Nat) (tldb : List (List Nat))
    (mp : List (List (List Unit))) : Component Unit Unit Unit Unit Unit where
  maxConstraintLogDegreeBound := bound
  nConstraints := 0
  maskPoints := fun _ => mp
  traceLogDegreeBounds := tldb
  evaluateConstraintQuotientsAtPoint := fun _ _ a _ _ => a

/-- A concrete prover component over trivial carrier types (`Po` = `Ev` =
`Nat` so committed columns are distinguishable), used to instantiate the
prover-side theorems on explicit inputs. -/
def testProver (tldb : List (List Nat)) :
    ComponentProver Unit Unit Unit Unit Unit Unit Nat Nat where
  toComponent :=
    { maxConstraintLogDegreeBound := 1
      nConstraints := 0
      maskPoints := fun _ => []
      traceLogDegreeBounds := tldb
      evaluateConstraintQuotientsAtPoint := fun _ _ a _ _ => a }
  evaluateConstraintQuotientsOnDomain := fun _ a _ _ => a
  lookupValues := fun _ => []

end Stwo

namespace Stwo

/-! Lemmas about the per-tree aggregation. -/

theorem extendInto_nil_left (comp : List (List β)) :
    extendInto [] comp = comp := by
  induction comp with
  | nil => rfl
  | cons c cr ih => simpa [extendInto] using ih

theorem getD_extendInto (air comp : List (List β)) (t : Nat) :
    (extendInto air comp).getD t [] = air.getD t [] ++ comp.getD t [] := by
  induction air generalizing comp t with
  | nil =>
    rw [extendInto_nil_left]
    cases comp with
    | nil => simp
    | cons c cr => cases t <;> simp
  | cons a ar ih =>
    cases comp with
    | nil => simp [extendInto]
    | cons c cr =>
      cases t with
      | zero => simp [extendInto]
      | succ t => simpa [extendInto] using ih cr t

theorem length_extendInto (air comp : List (List β)) :
    (extendInto air comp).length = max air.length comp.length := by
  induction air generalizing comp with
  | nil => rw [extendInto_nil_left]; simp
  | cons a ar ih =>
    cases comp with
    | nil => simp [extendInto]
    | cons c cr =>
      simp [extendInto, ih cr, Nat.succ_max_succ]

theorem length_foldl_extendInto (xs : List γ) (f : γ → List (List β))
    (air : List (List β)) :
    (xs.foldl (fun a c => extendInto a (f c)) air).length =
      xs.foldl (fun n c => max n (f c).length) air.length := by
  induction xs generalizing air with
  | nil => rfl
  | cons x xr ih =>
    rw [List.foldl_cons, List.foldl_cons, ih, length_extendInto]

theorem getD_foldl_extendInto (xs : List γ) (f : γ → List (List β))
    (air : List (List β)) (t : Nat) :
    (xs.foldl (fun a c => extendInto a (f c)) air).getD t [] =
      air.getD t [] ++ (xs.map fun c => (f c).getD t []).flatten := by
  induction xs generalizing air with
  | nil => simp
  | cons x xr ih =>
    rw [List.foldl_cons, ih, getD_extendInto]
    simp [List.append_assoc]

/-- For a non-empty `Nat` list, `max?` returns an attained upper bound. -/
theorem natMax?_spec (l : List Nat) (h : l ≠ []) :
    ∃ m, l.max? = some m ∧ (∀ b ∈ l, b ≤ m) ∧ m ∈ l := by
  obtain ⟨m, hm⟩ : ∃ m, l.max? = some m := by
    cases hmax : l.max? with
    | none => exact absurd (List.max?_eq_none_iff.mp hmax) h
    | some m => exact ⟨m, rfl⟩
  refine ⟨m, hm, ?_, List.max?_mem (fun a b => max_choice a b) hm⟩
  exact (List.max?_le_iff (fun a b c => Nat.max_le) hm (x := m)).mp le_rfl

/-- **C6.** For a non-empty component list, `Components::composition_log_degree_bound`
returns the maximum — an upper bound that is attained by some component — of the
components' individual `max_constraint_log_degree_bound` values, not their sum. -/
theorem compositionLogDegreeBound_is_max {P S A I LV : Type}
    (cs : List (Component P S A I LV)) (h : cs ≠ []) :
    ∃ m, compositionLogDegreeBound cs = some m ∧
      (∀ c ∈ cs, c.maxConstraintLogDegreeBound ≤ m) ∧
      (∃ c ∈ cs, c.maxConstraintLogDegreeBound = m) := by
  have hlne : cs.map (fun c => c.maxConstraintLogDegreeBound) ≠ [] := by
    intro hc
    exact h (List.map_eq_nil_iff.mp hc)
  obtain ⟨m, hm, hub, hmem⟩ := natMax?_spec _ hlne
  refine ⟨m, hm, ?_, ?_⟩
  · intro c hc
    exact hub _ (List.mem_map_of_mem _ hc)
  · obtain ⟨c, hc, hcm⟩ := List.mem_map.mp hmem
    exact ⟨c, hc, hcm⟩

/-- Witness for C6, the spec's example: components with bounds 3, 5, 2 yield 5. -/
theorem compositionLogDegreeBound_is_max_witness :
    ∃ m, compositionLogDegreeBound
        [testComponent 3 [] [], testComponent 5 [] [], testComponent 2 [] []] = some m ∧
      (∀ c ∈ [testComponent 3 [] [], testComponent 5 [] [], testComponent 2 [] []],
        c.maxConstraintLogDegreeBound ≤ m) ∧
      (∃ c ∈ [testComponent 3 [] [], testComponent 5 [] [], testComponent 2 [] []],
        c.maxConstraintLogDegreeBound = m) :=
  compositionLogDegreeBound_is_max _ (List.cons_ne_nil _ _)

/-- **C10.** `Components::composition_log_degree_bound` panics (unwraps `None`,
modelled as `none`) on an empty component list, and returns normally (`isSome`)
on every non-empty component list. -/
theorem compositionLogDegreeBound_empty_panics (P S A I LV : Type) :
    compositionLogDegreeBound ([] : List (Component P S A I LV)) = none ∧
      ∀ cs : List (Component P S A I LV), cs ≠ [] →
        (compositionLogDegreeBound cs).isSome := by
  constructor
  · rfl
  · intro cs h
    have hlne : cs.map (fun c => c.maxConstraintLogDegreeBound) ≠ [] := by
      intro hc
      exact h (List.map_eq_nil_iff.mp hc)
    obtain ⟨m, hm, -, -⟩ := natMax?_spec _ hlne
    simp [compositionLogDegreeBound, hm]

/-- Witness for C10: on a singleton component list the bound is returned. -/
theorem compositionLogDegreeBound_empty_panics_witness :
    compositionLogDegreeBound ([] : List (Component Unit Unit Unit Unit Unit)) = none ∧
      (compositionLogDegreeBound [testComponent 7 [] []]).isSome :=
  ⟨(compositionLogDegreeBound_empty_panics Unit Unit Unit Unit Unit).1,
    (compositionLogDegreeBound_empty_panics Unit Unit Unit Unit Unit).2
      [testComponent 7 [] []] (List.cons_ne_nil _ _)⟩

/-- **C4.** For a non-empty component list, `Components::mask_points` returns a
tree list whose last tree is the single appended synthetic tree: it has exactly
`SECURE_EXTENSION_DEGREE = 4` columns, each holding just the evaluation point,
and the total tree count is one more than the components' maximal tree count
(so no other tree is appended beyond those contributed by components). -/
theorem maskPoints_appends_one_composition_tree {P S A I LV : Type}
    (cs : List (Component P S A I LV)) (point : P) (h : cs ≠ []) :
    (maskPoints cs point).getLast? =
        some (List.replicate SECURE_EXTENSION_DEGREE [point]) ∧
      (List.replicate SECURE_EXTENSION_DEGREE [point]).length = 4 ∧
      (∀ col ∈ List.replicate SECURE_EXTENSION_DEGREE [point], col = [point]) ∧
      (maskPoints cs point).length =
        ((cs.map fun c => (c.maskPoints point).length).foldl max 0) + 1 := by
  refine ⟨?_, rfl, ?_, ?_⟩
  · rw [maskPoints, List.getLast?_append]
    rfl
  · intro col hcol
    exact List.eq_of_mem_replicate hcol
  · rw [maskPoints, List.length_append, length_foldl_extendInto, List.foldl_map]
    rfl

/-- Witness for C4: a singleton component list with a one-tree mask. -/
theorem maskPoints_appends_one_composition_tree_witness :
    (maskPoints [testComponent 3 [] [[[()]]]] ()).getLast? =
        some (List.replicate SECURE_EXTENSION_DEGREE [()]) ∧
      (List.replicate SECURE_EXTENSION_DEGREE [()]).length = 4 ∧
      (∀ col ∈ List.replicate SECURE_EXTENSION_DEGREE [()], col = [()]) ∧
      (maskPoints [testComponent 3 [] [[[()]]]] ()).length =
        (([testComponent 3 [] [[[()]]]].map
          fun c => (c.maskPoints ()).length).foldl max 0) + 1 :=
  maskPoints_appends_one_composition_tree [testComponent 3 [] [[[()]]]] ()
    (List.cons_ne_nil _ _)

/-- **C5.** Order preservation: every per-tree list produced by
`Components::mask_points` (apart from the appended composition tree, which is
last) and by `Components::column_log_sizes` is exactly the concatenation of the
corresponding per-component per-tree outputs in input component order; a
component with fewer trees contributes nothing to the trailing trees. -/
theorem aggregation_preserves_component_order {P S A I LV : Type}
    (cs : List (Component P S A I LV)) (point : P) :
    (∀ t, t + 1 < (maskPoints cs point).length →
        (maskPoints cs point).getD t [] =
          (cs.map fun c => (c.maskPoints point).getD t []).flatten) ∧
      ∀ t, (columnLogSizes cs).getD t [] =
        (cs.map fun c => c.traceLogDegreeBounds.getD t []).flatten := by
  constructor
  · intro t ht
    rw [maskPoints] at ht ⊢
    rw [List.length_append, List.length_singleton] at ht
    rw [List.getD_append _ _ _ _ (Nat.lt_of_succ_lt_succ ht),
      getD_foldl_extendInto]
    simp
  · intro t
    rw [columnLogSizes, getD_foldl_extendInto]
    simp

/-- Witness for C5: two components, the second with fewer trees; checked at
tree 0 for mask points and column sizes. -/
theorem aggregation_preserves_component_order_witness :
    (maskPoints [testComponent 1 [[3]] [[[()]], [[()], [()]]],
          testComponent 2 [[4, 5]] [[[()]]]] ()).getD 0 [] =
        ([testComponent 1 [[3]] [[[()]], [[()], [()]]],
          testComponent 2 [[4, 5]] [[[()]]]].map
            fun c => (c.maskPoints ()).getD 0 []).flatten ∧
      (columnLogSizes [testComponent 1 [[3]] [[[()]], [[()], [()]]],
          testComponent 2 [[4, 5]] [[[()]]]]).getD 0 [] =
        ([testComponent 1 [[3]] [[[()]], [[()], [()]]],
          testComponent 2 [[4, 5]] [[[()]]]].map
            fun c => c.traceLogDegreeBounds.getD 0 []).flatten :=
  ⟨(aggregation_preserves_component_order _ ()).1 0 (by decide),
    (aggregation_preserves_component_order _ ()).2 0⟩

/-- **C8.** Cardinality-mismatch failure: when the number of externally
supplied per-component items (mask-value slices for
`eval_composition_polynomial_at_point`, component traces for `lookup_values`
and `compute_composition_polynomial`) differs from the number of components,
the call panics (`none`) and produces no partial or truncated result. -/
theorem cardinality_mismatch_fails {P S A I LV DA Po Ev CP : Type}
    (newAcc : S → A) (finalize : A → S) (daNew : S → Nat → Nat → DA)
    (daFinalize : DA → CP)
    (cs : List (Component P S A I LV)) (point : P)
    (maskValues : List (List (List (List S)))) (randomCoeff : S)
    (interactionElements : I) (lookupVals : List LV)
    (cps : List (ComponentProver P S A I LV DA Po Ev))
    (traces : List (ComponentTrace Po Ev))
    (hmv : maskValues.length ≠ cs.length)
    (htr : traces.length ≠ cps.length) :
    evalCompositionPolynomialAtPoint newAcc finalize cs point maskValues
        randomCoeff interactionElements lookupVals = none ∧
      lookupValuesAgg cps traces = none ∧
      computeCompositionPolynomial daNew daFinalize cps randomCoeff traces
        interactionElements lookupVals = none := by
  refine ⟨?_, ?_, ?_⟩
  · rw [evalCompositionPolynomialAtPoint, zipEq, if_neg (Ne.symm hmv)]
    rfl
  · rw [lookupValuesAgg, zipEq, if_neg (Ne.symm htr)]
    rfl
  · rw [computeCompositionPolynomial]
    cases compositionLogDegreeBound (cps.map fun c => c.toComponent) with
    | none => rfl
    | some bound => simp [zipEq, Ne.symm htr]

/-- Witness for C8: one component but zero supplied mask-value slices and
zero supplied traces. -/
theorem cardinality_mismatch_fails_witness :
    evalCompositionPolynomialAtPoint (fun _ => ()) (fun _ => ())
        [testComponent 0 [] []] () [] () () [] = none ∧
      lookupValuesAgg [testProver []] [] = none ∧
      computeCompositionPolynomial (fun _ _ _ => ()) (fun _ => ())
        [testProver []] () [] () [] = none :=
  cardinality_mismatch_fails (fun _ => ()) (fun _ => ()) (fun _ _ _ => ())
    (fun _ => ()) [testComponent 0 [] []] () [] () () [] [testProver []] []
    (by decide) (by decide)

/-- **C9.** The default LogUp hooks of `EvalAtRow` (`init_logup`,
`write_frac`, `finalize_logup`) abort immediately with `unimplemented!`
("not implemented") on every invocation, rather than returning a value or a
recoverable error. -/
theorem logup_default_hooks_panic (S CPS EF : Type) :
    (∀ (totalSum : S) (claimedSum : Option CPS) (logSize : Nat),
        initLogupDefault totalSum claimedSum logSize =
          PanicOr.panicked "not implemented") ∧
      (∀ fraction : Fraction EF,
        writeFracDefault fraction = PanicOr.panicked "not implemented") ∧
      finalizeLogupDefault = PanicOr.panicked "not implemented" :=
  ⟨fun _ _ _ => rfl, fun _ => rfl, rfl⟩

/-- Folding `acc + g x` from an arbitrary initial value splits off the
initial value. -/
theorem foldl_add_shift {EF : Type} [AddCommMonoid EF] {γ : Type}
    (g : γ → EF) (l : List γ) (init : EF) :
    l.foldl (fun acc x => acc + g x) init =
      init + l.foldl (fun acc x => acc + g x) 0 := by
  induction l generalizing init with
  | nil => simp
  | cons x xr ih =>
    rw [List.foldl_cons, List.foldl_cons, ih (init + g x), ih (0 + g x),
      zero_add, add_assoc]

/-- The fold of `combine` over a zip of equal-length lists is the indexed
sum. -/
theorem foldl_zip_eq_sum {S F EF : Type} [AddCommMonoid EF] (g : S → F → EF) :
    ∀ (values : List F) (alphas : List S)
      (h : values.length = alphas.length),
    (values.zip alphas).foldl (fun acc vp => acc + g vp.2 vp.1) 0 =
      ∑ i : Fin values.length, g (alphas.get (Fin.cast h i)) (values.get i) := by
  intro values
  induction values with
  | nil => intro alphas h; simp
  | cons v vr ih =>
    intro alphas h
    cases alphas with
    | nil => exact absurd h (by simp)
    | cons a ar =>
      have h' : vr.length = ar.length := Nat.succ.inj h
      rw [List.zip_cons_cons, List.foldl_cons, foldl_add_shift, zero_add,
        ih ar h']
      exact (Fin.sum_univ_succ
        (f := fun i : Fin (vr.length + 1) =>
          g ((a :: ar).get (Fin.cast h i)) ((v :: vr).get i))).symm

/-- **C2.** `combine` of a `relation!`-generated relation equals the affine
combination `Σ alpha_i · v_i − z` over the extension field, for every value
tuple matching the relation's challenge-ladder width. -/
theorem relationCombine_affine {S F EF : Type} [AddCommGroup EF]
    (frm : S → EF) (mulF : EF → F → EF) (le : LookupElements S)
    (values : List F) (h : values.length = le.alphaPowers.length) :
    relationCombine frm mulF le values =
      (∑ i : Fin values.length,
        mulF (frm (le.alphaPowers.get (Fin.cast h i))) (values.get i))
        - frm le.z := by
  rw [relationCombine, foldl_zip_eq_sum (fun s f => mulF (frm s) f) values
    le.alphaPowers h]

/-- Witness for C2: alphas `[2, 3]`, `z = 5`, values `[7, 11]` over `ℤ`:
`combine = 2·7 + 3·11 − 5 = 42`. -/
theorem relationCombine_affine_witness :
    ([7, 11] : List Int).length =
        (LookupElements.mk ([2, 3] : List Int) 5).alphaPowers.length ∧
      relationCombine (fun s => s) (fun a b => a * b)
          (LookupElements.mk ([2, 3] : List Int) 5) [7, 11] =
        (∑ i : Fin ([7, 11] : List Int).length,
          (fun s => s) ((LookupElements.mk ([2, 3] : List Int) 5).alphaPowers.get
            (Fin.cast rfl i)) * ([7, 11] : List Int).get i)
          - (fun s => s) (LookupElements.mk ([2, 3] : List Int) 5).z :=
  ⟨rfl, relationCombine_affine (fun s => s) (fun a b => a * b)
    (LookupElements.mk ([2, 3] : List Int) 5) [7, 11] rfl⟩

/-- Folding common-denominator addition over a batch computes the spec-side
common-denominator numerator and denominator. -/
theorem foldl_fracAdd_eq_cds {R : Type} [CommRing R] :
    ∀ (t : List (Fraction R)) (hd : Fraction R),
    (t.foldl Fraction.add hd).numerator = cdsNum (hd :: t) ∧
      (t.foldl Fraction.add hd).denominator = cdsDen (hd :: t) := by
  intro t
  induction t with
  | nil =>
    intro hd
    constructor
    · simp [cdsNum, cdsDen]
    · simp [cdsDen]
  | cons x tr ih =>
    intro hd
    rw [List.foldl_cons]
    obtain ⟨hn, hd2⟩ := ih (hd.add x)
    constructor
    · rw [hn]
      simp [cdsNum, cdsDen, Fraction.add]
      ring
    · rw [hd2]
      simp [cdsDen, Fraction.add]
      ring

/-- **C3.** Batch transparency of `add_to_relation`: for every non-empty batch
of relation entries, the single fraction forwarded to `write_frac` equals the
common-denominator sum of the individual fractions
`multiplicity / relation.combine(values)`: its denominator is the product of
all the individual denominators and its numerator the matching sum. -/
theorem addToRelation_batch {F EF : Type} [CommRing EF]
    (entries : List (RelationEntry F EF)) (h : entries ≠ []) :
    addToRelationFrac entries =
      commonDenomSumSpec (entries.map fun e =>
        Fraction.mk e.multiplicity (e.relation.combine e.values)) := by
  obtain ⟨e, es, rfl⟩ := List.exists_cons_of_ne_nil h
  rw [addToRelationFrac, commonDenomSumSpec, List.map_cons]
  obtain ⟨hn, hd2⟩ := foldl_fracAdd_eq_cds
    (es.map fun e => Fraction.mk e.multiplicity (e.relation.combine e.values))
    (Fraction.mk e.multiplicity (e.relation.combine e.values))
  exact Fraction.ext (by rw [sumFracs, hn]) (by rw [sumFracs, hd2])

/-- Witness for C3: two concrete entries over `ℤ` (multiplicities 2 and 5,
combined denominators 3 and 4). -/
theorem addToRelation_batch_witness :
    addToRelationFrac
        [RelationEntry.mk (RelationI.mk List.sum "r") (2 : Int) [3],
         RelationEntry.mk (RelationI.mk List.sum "r") (5 : Int) [4]] =
      commonDenomSumSpec
        ([RelationEntry.mk (RelationI.mk List.sum "r") (2 : Int) [3],
          RelationEntry.mk (RelationI.mk List.sum "r") (5 : Int) [4]].map
          fun e => Fraction.mk e.multiplicity (e.relation.combine e.values)) :=
  addToRelation_batch _ (List.cons_ne_nil _ _)

/-- Recombining four parallel maps over the same offsets list column-major is
a single map. -/
theorem zipWith_combine_maps {F EF γ : Type} (combineEf : F → F → F → F → EF)
    (f0 f1 f2 f3 : γ → F) :
    ∀ l : List γ,
    List.zipWith (fun a bcd => combineEf a bcd.1 bcd.2.1 bcd.2.2) (l.map f0)
        ((l.map f1).zip ((l.map f2).zip (l.map f3))) =
      l.map fun o => combineEf (f0 o) (f1 o) (f2 o) (f3 o) := by
  intro l
  induction l with
  | nil => rfl
  | cons x xr ih => simp [ih]

/-- Counterexample for C7 as stated: with 2 requested offsets,
`next_extension_interaction_mask` advances the tree's column cursor by 4, not
by `SECURE_EXTENSION_DEGREE` columns per requested offset (which would be 8). -/
theorem nextExtensionInteractionMask_not_per_offset :
    (nextExtensionInteractionMask (fun a b c d => a + b + c + d)
        (EvalCursor.mk (fun _ => 0) (fun _ _ _ => (0 : Int))) 1
        [0, 1]).2.curs 1 = 4 ∧
      ¬ ((nextExtensionInteractionMask (fun a b c d => a + b + c + d)
          (EvalCursor.mk (fun _ => 0) (fun _ _ _ => (0 : Int))) 1
          [0, 1]).2.curs 1 =
        SECURE_EXTENSION_DEGREE * ([0, 1] : List Int).length) := by
  constructor
  · rfl
  · intro hc
    simp [SECURE_EXTENSION_DEGREE] at hc
    exact absurd (hc ▸ rfl) (by decide : (4 : Nat) ≠ 8)

/-- **C7 (amended).** For every tree and requested-offset list,
`next_extension_interaction_mask` consumes exactly `SECURE_EXTENSION_DEGREE`
(= 4) consecutive base columns of that tree in total — independent of the
number of requested offsets — leaving every other tree's cursor and the column
table untouched, and returns exactly one extension value per requested offset,
the column-major `combine_ef`-recombination of the 4 consumed columns at that
offset. -/
theorem nextExtensionInteractionMask_spec {F EF : Type}
    (combineEf : F → F → F → F → EF) (s : EvalCursor F) (interaction : Nat)
    (offsets : List Int) :
    (nextExtensionInteractionMask combineEf s interaction offsets).1 =
        (offsets.map fun o => combineEf
          (s.cols interaction (s.curs interaction) o)
          (s.cols interaction (s.curs interaction + 1) o)
          (s.cols interaction (s.curs interaction + 2) o)
          (s.cols interaction (s.curs interaction + 3) o)) ∧
      (nextExtensionInteractionMask combineEf s interaction offsets).2.curs
          interaction = s.curs interaction + SECURE_EXTENSION_DEGREE ∧
      (∀ t, t ≠ interaction →
        (nextExtensionInteractionMask combineEf s interaction offsets).2.curs t
          = s.curs t) ∧
      (nextExtensionInteractionMask combineEf s interaction offsets).2.cols
        = s.cols := by
  refine ⟨?_, ?_, ?_, ?_⟩
  · simp only [nextExtensionInteractionMask, nextInteractionMask,
      eq_self_iff_true, if_true]
    rw [zipWith_combine_maps]
  · simp [nextExtensionInteractionMask, nextInteractionMask,
      SECURE_EXTENSION_DEGREE]
  · intro t ht
    simp [nextExtensionInteractionMask, nextInteractionMask, ht]
  · rfl

/-- Witness for C7 (amended): a concrete two-offset call over `ℤ`, including
the untouched cursor of tree 0. -/
theorem nextExtensionInteractionMask_spec_witness :
    (nextExtensionInteractionMask (fun a b c d => a + 10 * b + 100 * c +
        1000 * d) (EvalCursor.mk (fun t => t) (fun t c o => t + c + o)) 1
        [0, 1]).1 =
        (([0, 1] : List Int).map fun o => (fun a b c d : Int =>
          a + 10 * b + 100 * c + 1000 * d)
          ((EvalCursor.mk (fun t => t) (fun t c o => (t : Int) + c + o)).cols 1
            ((EvalCursor.mk (fun t => t)
              (fun t c o => (t : Int) + c + o)).curs 1) o)
          ((EvalCursor.mk (fun t => t) (fun t c o => (t : Int) + c + o)).cols 1
            ((EvalCursor.mk (fun t => t)
              (fun t c o => (t : Int) + c + o)).curs 1 + 1) o)
          ((EvalCursor.mk (fun t => t) (fun t c o => (t : Int) + c + o)).cols 1
            ((EvalCursor.mk (fun t => t)
              (fun t c o => (t : Int) + c + o)).curs 1 + 2) o)
          ((EvalCursor.mk (fun t => t) (fun t c o => (t : Int) + c + o)).cols 1
            ((EvalCursor.mk (fun t => t)
              (fun t c o => (t : Int) + c + o)).curs 1 + 3) o)) ∧
      (nextExtensionInteractionMask (fun a b c d => a + 10 * b + 100 * c +
          1000 * d) (EvalCursor.mk (fun t => t) (fun t c o => t + c + o)) 1
          [0, 1]).2.curs 1 = 1 + SECURE_EXTENSION_DEGREE ∧
      (nextExtensionInteractionMask (fun a b c d => a + 10 * b + 100 * c +
          1000 * d) (EvalCursor.mk (fun t => t) (fun t c o => t + c + o)) 1
          [0, 1]).2.curs 0 = 0 :=
  ⟨(nextExtensionInteractionMask_spec _ _ 1 [0, 1]).1,
    (nextExtensionInteractionMask_spec _ _ 1 [0, 1]).2.1,
    (nextExtensionInteractionMask_spec _ _ 1 [0, 1]).2.2.1 0 (by decide)⟩

/-- `getD` of the per-tree `take` step. -/
theorem getD_zipWith_take {α : Type} :
    ∀ (ns : List Nat) (rem : List (List α)) (t : Nat),
    (List.zipWith (fun n r => r.take n) ns rem).getD t [] =
      (rem.getD t []).take (ns.getD t 0) := by
  intro ns
  induction ns with
  | nil => intro rem t; simp
  | cons n nr ih =>
    intro rem t
    cases rem with
    | nil => simp
    | cons r rr =>
      cases t with
      | zero => rfl
      | succ t => simpa using ih rr t

/-- `getD` of the per-tree `drop` step (the advanced iterator state), for
aligned tree counts. -/
theorem getD_zipWith_drop {α : Type} :
    ∀ (ns : List Nat) (rem : List (List α)), ns.length = rem.length →
    ∀ t : Nat,
    (List.zipWith (fun n r => r.drop n) ns rem).getD t [] =
      (rem.getD t []).drop (ns.getD t 0) := by
  intro ns
  induction ns with
  | nil =>
    intro rem h t
    cases rem with
    | nil => simp
    | cons r rr => simp at h
  | cons n nr ih =>
    intro rem h t
    cases rem with
    | nil => simp at h
    | cons r rr =>
      cases t with
      | zero => rfl
      | succ t => simpa using ih rr (Nat.succ.inj h) t

/-- Tree-wise `take` yields slices of exactly the declared lengths when the
declared counts fit the available columns. -/
theorem forall₂_take_len {α : Type} :
    ∀ (ns : List Nat) (rem : List (List α)), ns.length = rem.length →
    (∀ t, t < rem.length → ns.getD t 0 ≤ (rem.getD t []).length) →
    List.Forall₂ (fun n sl => sl.length = n) ns
      (List.zipWith (fun n r => r.take n) ns rem) := by
  intro ns
  induction ns with
  | nil => intro rem h hb; simp
  | cons n nr ih =>
    intro rem h hb
    cases rem with
    | nil => simp at h
    | cons r rr =>
      refine List.Forall₂.cons ?_ (ih rr (Nat.succ.inj h) ?_)
      · rw [List.length_take]
        exact Nat.min_eq_left (hb 0 (Nat.succ_pos _))
      · intro t ht
        exact hb (t + 1) (Nat.succ_lt_succ ht)

/-- Core specification of the `component_traces` loop over one flat per-tree
column list: when every component's tree count equals the number of trees and
the declared per-tree column counts sum to each tree's column count, the loop
succeeds, every component receives per-tree slices of exactly its declared
lengths, and tree-wise concatenation of the slices in component order rebuilds
every tree's flat list. -/
theorem consumeTraces_spec {α : Type} :
    ∀ (tldbs : List (List Nat)) (rem : List (List α)),
    (∀ ns ∈ tldbs, ns.length = rem.length) →
    (∀ t, t < rem.length →
      (tldbs.map fun ns => ns.getD t 0).sum = (rem.getD t []).length) →
    ∃ out remFin, consumeTraces tldbs rem = some (out, remFin) ∧
      (∀ t, (out.map fun sl => sl.getD t []).flatten = rem.getD t []) ∧
      List.Forall₂ (fun ns slices =>
        List.Forall₂ (fun n sl => sl.length = n) ns slices) tldbs out := by
  intro tldbs
  induction tldbs with
  | nil =>
    intro rem hlen hsum
    refine ⟨[], rem, rfl, ?_, List.Forall₂.nil⟩
    intro t
    by_cases ht : t < rem.length
    · have h0 : (rem.getD t []).length = 0 := by simpa using (hsum t ht).symm
      simpa using (List.eq_nil_of_length_eq_zero h0).symm
    · simpa using List.getD_eq_default rem [] (Nat.le_of_not_lt ht)
  | cons ns rest ih =>
    intro rem hlen hsum
    have hns : ns.length = rem.length := hlen ns (List.mem_cons_self _ _)
    have htake : takeComponentColumns ns rem =
        some (List.zipWith (fun n r => r.take n) ns rem,
          List.zipWith (fun n r => r.drop n) ns rem) := by
      rw [takeComponentColumns, if_pos hns]
    have hlen1 : (List.zipWith (fun n r => r.drop n) ns rem).length =
        rem.length := by
      rw [List.length_zipWith, hns, Nat.min_self]
    have hbound : ∀ t, t < rem.length →
        ns.getD t 0 ≤ (rem.getD t []).length := by
      intro t ht
      have hs := hsum t ht
      rw [List.map_cons, List.sum_cons] at hs
      omega
    have hsum1 : ∀ t, t < (List.zipWith (fun n r => r.drop n) ns rem).length →
        (rest.map fun ns' => ns'.getD t 0).sum =
          ((List.zipWith (fun n r => r.drop n) ns rem).getD t []).length := by
      intro t ht
      rw [hlen1] at ht
      rw [getD_zipWith_drop ns rem hns t, List.length_drop]
      have hs := hsum t ht
      rw [List.map_cons, List.sum_cons] at hs
      omega
    have hlenr : ∀ ns' ∈ rest,
        ns'.length = (List.zipWith (fun n r => r.drop n) ns rem).length := by
      intro ns' hm
      rw [hlen1]
      exact hlen ns' (List.mem_cons_of_mem _ hm)
    obtain ⟨out, remFin, hrec, hflat, hfa⟩ :=
      ih (List.zipWith (fun n r => r.drop n) ns rem) hlenr hsum1
    refine ⟨List.zipWith (fun n r => r.take n) ns rem :: out, remFin, ?_, ?_, ?_⟩
    · simp [consumeTraces, htake, hrec]
    · intro t
      rw [List.map_cons, List.flatten_cons, hflat t, getD_zipWith_take,
        getD_zipWith_drop ns rem hns t]
      exact List.take_append_drop _ _
    · exact List.Forall₂.cons (forall₂_take_len ns rem hns hbound) hfa

/-- Two pointwise `Forall₂` facts against the same left list combine over a
zip of the right lists. -/
theorem forall₂_pair_zip {γ α2 β2 : Type} {R1 : γ → α2 → Prop}
    {R2 : γ → β2 → Prop} :
    ∀ {cs : List γ} {ps : List α2} {bs : List β2},
    List.Forall₂ R1 cs ps → List.Forall₂ R2 cs bs →
    List.Forall₂ (fun c p => R1 c p.1 ∧ R2 c p.2) cs (ps.zip bs) := by
  intro cs ps bs h1
  induction h1 generalizing bs with
  | nil =>
    intro h2
    cases h2
    exact List.Forall₂.nil
  | cons ha htail ih =>
    intro h2
    cases h2 with
    | cons hb htail2 => exact List.Forall₂.cons ⟨ha, hb⟩ (ih htail2)

/-- `getD` of a list mapped through `List.length`, with the matching
defaults. -/
theorem getD_map_length {β : Type} :
    ∀ (l : List (List β)) (t : Nat),
    (l.map List.length).getD t 0 = (l.getD t []).length := by
  intro l
  induction l with
  | nil => intro t; simp
  | cons x xr ih =>
    intro t
    cases t with
    | zero => rfl
    | succ t => simpa using ih t

/-- **C1.** Partition round-trip of `ComponentProvers::component_traces`: when
every component's declared tree count equals the number of committed trees and
the declared per-tree column counts sum, tree by tree, to the lengths of the
flat committed polynomial and evaluation lists, the partition succeeds, each
component receives per tree a contiguous slice of exactly its declared
`n_columns` entries, and flattening the output tree by tree in component order
reconstructs the original flat input lists exactly. -/
theorem componentTraces_roundtrip {P S A I LV DA Po Ev : Type}
    (cps : List (ComponentProver P S A I LV DA Po Ev))
    (trees : List (CommitmentTreeProver Po Ev))
    (htrees : ∀ c ∈ cps,
      c.toComponent.traceLogDegreeBounds.length = trees.length)
    (hpoly : ∀ t, t < trees.length →
      (cps.map fun c =>
        (c.toComponent.traceLogDegreeBounds.getD t []).length).sum =
        ((trees.map fun tr => tr.polynomials).getD t []).length)
    (heval : ∀ t, t < trees.length →
      (cps.map fun c =>
        (c.toComponent.traceLogDegreeBounds.getD t []).length).sum =
        ((trees.map fun tr => tr.evaluations).getD t []).length) :
    ∃ out, componentTraces cps trees = some out ∧
      (∀ t, (out.map fun ct => ct.polys.getD t []).flatten =
        (trees.map fun tr => tr.polynomials).getD t []) ∧
      (∀ t, (out.map fun ct => ct.evals.getD t []).flatten =
        (trees.map fun tr => tr.evaluations).getD t []) ∧
      List.Forall₂ (fun c ct =>
        List.Forall₂ (fun n sl => sl.length = n)
          (c.toComponent.traceLogDegreeBounds.map List.length) ct.polys ∧
        List.Forall₂ (fun n sl => sl.length = n)
          (c.toComponent.traceLogDegreeBounds.map List.length) ct.evals)
        cps out := by
  have hmapsum : ∀ t, (cps.map fun c =>
      c.toComponent.traceLogDegreeBounds.map List.length).map
        (fun ns => ns.getD t 0) =
      cps.map fun c =>
        (c.toComponent.traceLogDegreeBounds.getD t []).length := by
    intro t
    rw [List.map_map]
    exact List.map_congr_left fun c _ => getD_map_length _ t
  have hlenP : ∀ ns ∈ (cps.map fun c =>
      c.toComponent.traceLogDegreeBounds.map List.length),
      ns.length = (trees.map fun tr => tr.polynomials).length := by
    intro ns hm
    obtain ⟨c, hc, rfl⟩ := List.mem_map.mp hm
    simp [htrees c hc]
  have hlenE : ∀ ns ∈ (cps.map fun c =>
      c.toComponent.traceLogDegreeBounds.map List.length),
      ns.length = (trees.map fun tr => tr.evaluations).length := by
    intro ns hm
    obtain ⟨c, hc, rfl⟩ := List.mem_map.mp hm
    simp [htrees c hc]
  have hsumP : ∀ t, t < (trees.map fun tr => tr.polynomials).length →
      ((cps.map fun c =>
        c.toComponent.traceLogDegreeBounds.map List.length).map
          (fun ns => ns.getD t 0)).sum =
        ((trees.map fun tr => tr.polynomials).getD t []).length := by
    intro t ht
    rw [List.length_map] at ht
    rw [hmapsum t]
    exact hpoly t ht
  have hsumE : ∀ t, t < (trees.map fun tr => tr.evaluations).length →
      ((cps.map fun c =>
        c.toComponent.traceLogDegreeBounds.map List.length).map
          (fun ns => ns.getD t 0)).sum =
        ((trees.map fun tr => tr.evaluations).getD t []).length := by
    intro t ht
    rw [List.length_map] at ht
    rw [hmapsum t]
    exact heval t ht
  obtain ⟨outP, remP, hrecP, hflatP, hfaP⟩ :=
    consumeTraces_spec _ (trees.map fun tr => tr.polynomials) hlenP hsumP
  obtain ⟨outE, remE, hrecE, hflatE, hfaE⟩ :=
    consumeTraces_spec _ (trees.map fun tr => tr.evaluations) hlenE hsumE
  have hlen2 : outP.length = outE.length := by
    rw [← hfaP.length_eq, hfaE.length_eq]
  have hfst : (outP.zip outE).map Prod.fst = outP :=
    List.map_fst_zip _ _ (le_of_eq hlen2)
  have hsnd : (outP.zip outE).map Prod.snd = outE :=
    List.map_snd_zip _ _ (le_of_eq hlen2.symm)
  refine ⟨(outP.zip outE).map fun pe => ⟨pe.1, pe.2⟩, ?_, ?_, ?_, ?_⟩
  · simp [componentTraces, hrecP, hrecE]
  · intro t
    have hstep : (((outP.zip outE).map fun pe =>
        (ComponentTrace.mk pe.1 pe.2 : ComponentTrace Po Ev)).map
          fun ct => ct.polys.getD t []) =
        outP.map fun sl => sl.getD t [] := by
      rw [List.map_map]
      show (outP.zip outE).map ((fun sl => sl.getD t []) ∘ Prod.fst) =
        outP.map fun sl => sl.getD t []
      rw [← List.map_map, hfst]
    rw [hstep]
    exact hflatP t
  · intro t
    have hstep : (((outP.zip outE).map fun pe =>
        (ComponentTrace.mk pe.1 pe.2 : ComponentTrace Po Ev)).map
          fun ct => ct.evals.getD t []) =
        outE.map fun sl => sl.getD t [] := by
      rw [List.map_map]
      show (outP.zip outE).map ((fun sl => sl.getD t []) ∘ Prod.snd) =
        outE.map fun sl => sl.getD t []
      rw [← List.map_map, hsnd]
    rw [hstep]
    exact hflatE t
  · rw [List.forall₂_map_right_iff]
    have hfaP2 := List.forall₂_map_left_iff.mp hfaP
    have hfaE2 := List.forall₂_map_left_iff.mp hfaE
    exact forall₂_pair_zip hfaP2 hfaE2

/-- Witness for C1, the spec's example: two components declaring 2 and 3
columns of a single tree; 5 committed columns partition into slices of
lengths 2 and 3 and flatten back. -/
theorem componentTraces_roundtrip_witness :
    ∃ out, componentTraces
        [testProver [[1, 1]], testProver [[2, 2, 2]]]
        [CommitmentTreeProver.mk [10, 20, 30, 40, 50] [1, 2, 3, 4, 5]] =
        some out ∧
      (∀ t, (out.map fun ct => ct.polys.getD t []).flatten =
        ([CommitmentTreeProver.mk ([10, 20, 30, 40, 50] : List Nat)
          ([1, 2, 3, 4, 5] : List Nat)].map fun tr => tr.polynomials).getD
            t []) ∧
      (∀ t, (out.map fun ct => ct.evals.getD t []).flatten =
        ([CommitmentTreeProver.mk ([10, 20, 30, 40, 50] : List Nat)
          ([1, 2, 3, 4, 5] : List Nat)].map fun tr => tr.evaluations).getD
            t []) ∧
      List.Forall₂ (fun c ct =>
        List.Forall₂ (fun n sl => sl.length = n)
          (c.toComponent.traceLogDegreeBounds.map List.length) ct.polys ∧
        List.Forall₂ (fun n sl => sl.length = n)
          (c.toComponent.traceLogDegreeBounds.map List.length) ct.evals)
        [testProver [[1, 1]], testProver [[2, 2, 2]]] out :=
  componentTraces_roundtrip
    [testProver [[1, 1]], testProver [[2, 2, 2]]]
    [CommitmentTreeProver.mk [10, 20, 30, 40, 50] [1, 2, 3, 4, 5]]
    (by decide) (by decide) (by decide)

end Stwo
